import Mathlib

/-!
Verification development for the retypd-rust constraint solver.

The definitions below are a shallow embedding of the Rust sources:
  * `src/schema.rs`  — term model (variance, field labels, derived type
    variables, constraints),
  * `src/graph.rs`   — the constraint graph ("transducer"), its builder
    (`build_initial_graph`) and the saturation fixpoint (`saturate`),
  * `src/parser.rs`  — the nom-based textual grammar for constraints,
  * `src/solver.rs`  — the shape/sketch unifier (`infer_shapes`) with its
    union-find style `find_equiv_group` / `unify` pair.

Modelling conventions:
  * petgraph's `DiGraph` is embedded as a list of node weights (the
    `NodeIndex` of a node is its position) together with a list of
    `(source, target, weight)` edge triples in insertion order, which is
    exactly the order `raw_edges` / `edge_indices` iterate in.
  * `HashMap<Node, NodeIndex>` (`graph_node_map`, `gm`) is kept in lockstep
    with the node list by the Rust code, so it is embedded as a positional
    search (`findIdx`) over the node list.
  * `HashSet` valued reaching sets are embedded as duplicate-free lists;
    only set membership and "was the element new" ever matter.
  * Numeric ids that the parser builds with `u32`/`i32` are embedded as
    `Nat`/`Int`; the parser model keeps the source's range checks
    (`map_res(..., from_str)` fails outside the machine range).
  * Rust loops that can diverge (`saturate`'s `while changed`, the
    representative chase in `find_equiv_group`, the recursion in `unify`)
    are embedded with an explicit fuel parameter and an `Option`/`SatRes`
    result: a `none`/`fuelOut` result means the Rust loop has not finished
    within that budget, and `panic` marks an `unwrap()` that fails.
-/

namespace Retypd


/-- `Variance` from src/schema.rs. -/
inductive Variance
  | Covariant
  | Contravariant
deriving DecidableEq, Repr

/-- `Variance::invert` from src/schema.rs. -/
def Variance.invert : Variance → Variance
  | .Covariant => .Contravariant
  | .Contravariant => .Covariant

/-- `Variance::combine` from src/schema.rs: equal variances give
`Covariant`, unequal give `Contravariant`. -/
def Variance.combine (a b : Variance) : Variance :=
  if a = b then .Covariant else .Contravariant

/-- `Bound` from src/schema.rs. -/
inductive Bound
  | Fixed (n : Nat)
  | NullTerm
  | NoBound
deriving DecidableEq, Repr

/-- `FieldLabel` from src/schema.rs.  The parser (src/parser.rs) builds the
in/out ids and the deref size with `u32` and the deref offset with `i32`;
they are embedded as `Nat`/`Int`. -/
inductive FieldLabel
  | InPattern (id : Nat)
  | OutPattern (id : Nat)
  | DerefPattern (size : Nat) (offset : Int) (bound : Option Bound)
  | Load
  | Store
deriving DecidableEq, Repr

/-- `FieldLabel::variance` from src/schema.rs. -/
def FieldLabel.variance : FieldLabel → Variance
  | .InPattern _ => .Contravariant
  | .OutPattern _ => .Covariant
  | .DerefPattern _ _ _ => .Covariant
  | .Load => .Covariant
  | .Store => .Contravariant

/-- `DerivedTypeVariable` from src/schema.rs. -/
structure DerivedTypeVariable where
  name : String
  fields : List FieldLabel
deriving DecidableEq, Repr

/-- `DerivedTypeVariable::get_sub_dtv` from src/schema.rs. -/
def DerivedTypeVariable.get_sub_dtv (d : DerivedTypeVariable) (i : Nat) :
    DerivedTypeVariable :=
  ⟨d.name, d.fields.take i⟩

/-- `Constraint` from src/schema.rs: `left <= right`. -/
structure Constraint where
  left : DerivedTypeVariable
  right : DerivedTypeVariable
deriving DecidableEq, Repr

/-- `SideMark` from src/graph.rs. -/
inductive SideMark
  | None
  | Left
  | Right
deriving DecidableEq, Repr

/-- `Node` from src/graph.rs: a DTV with an accumulated suffix variance and
a side mark. -/
structure Node where
  base : DerivedTypeVariable
  suffix_variance : Variance
  sidemark : SideMark
deriving DecidableEq, Repr

/-- `EdgeLabel` from src/graph.rs. -/
inductive EdgeLabel
  | One
  | Forget (capability : FieldLabel)
  | Recall (capability : FieldLabel)
deriving DecidableEq, Repr

/-- `Node::forget_once` from src/graph.rs: drop the last field, combining
its variance into the suffix variance. -/
def Node.forget_once (n : Node) : Option (FieldLabel × Node) :=
  match n.base.fields.getLast? with
  | none => none
  | some last =>
      some (last,
        ⟨⟨n.base.name, n.base.fields.dropLast⟩,
          n.suffix_variance.combine last.variance, n.sidemark⟩)

/-- Positional lookup in a list, embedding the `graph_node_map` /
`gm` hash maps that the Rust code keeps in lockstep with node insertion. -/
def findIdx {α : Type} [DecidableEq α] : List α → α → Option Nat
  | [], _ => none
  | a :: l, x => if a = x then some 0 else (findIdx l x).map (· + 1)

/-- `ConstraintGraph` from src/graph.rs: node weights in insertion order
(position = `NodeIndex`) and edge triples in insertion order. -/
structure CG where
  nodes : List Node
  edges : List (Nat × Nat × EdgeLabel)
deriving DecidableEq, Repr

/-- `ConstraintGraph::construct`: the empty graph. -/
def emptyCG : CG := ⟨[], []⟩

/-- `ConstraintGraph::add_node` from src/graph.rs: return the existing
index for a structurally equal node, otherwise append a fresh node. -/
def CG.add_node (g : CG) (n : Node) : Nat × CG :=
  match findIdx g.nodes n with
  | some i => (i, g)
  | none => (g.nodes.length, { g with nodes := g.nodes ++ [n] })

/-- `ConstraintGraph::add_edge` from src/graph.rs: refuse self loops,
refuse a duplicate `(source, target, label)` triple, otherwise append. -/
def CG.add_edge (g : CG) (a b : Nat) (l : EdgeLabel) : Bool × CG :=
  if a = b then (false, g)
  else if (a, b, l) ∈ g.edges then (false, g)
  else (true, { g with edges := g.edges ++ [(a, b, l)] })

/-- The direct `self.graph.add_edge(..)` calls of `build_initial_graph`
(src/graph.rs lines 206 and 227), which bypass `ConstraintGraph::add_edge`
and therefore perform no self-loop or duplicate check. -/
def CG.raw_add_edge (g : CG) (a b : Nat) (l : EdgeLabel) : CG :=
  { g with edges := g.edges ++ [(a, b, l)] }

/-- `ConstraintGraph::add_recalls`, with the `forget_once` chain length as
explicit recursion measure.  The Rust loop re-reads nothing from the graph:
the chain of `(cap, next)` pairs is determined by the starting node alone,
and each step shortens the field list by exactly one, so the fuel
`node.base.fields.length` is exact. -/
def CG.add_recalls_aux : Nat → CG → Nat → Node → CG
  | 0, g, _, _ => g
  | f + 1, g, ind, node =>
    match node.forget_once with
    | none => g
    | some (cap, next) =>
        let p := g.add_node next
        let g2 := (p.2.add_edge p.1 ind (.Recall cap)).2
        CG.add_recalls_aux f g2 p.1 next

/-- `ConstraintGraph::add_recalls` from src/graph.rs. -/
def CG.add_recalls (g : CG) (ind : Nat) (node : Node) : CG :=
  CG.add_recalls_aux node.base.fields.length g ind node

/-- Companion of `add_recalls` for `ConstraintGraph::add_forgets`: the edge
runs from the longer-path node to the shorter-path node. -/
def CG.add_forgets_aux : Nat → CG → Nat → Node → CG
  | 0, g, _, _ => g
  | f + 1, g, ind, node =>
    match node.forget_once with
    | none => g
    | some (cap, next) =>
        let p := g.add_node next
        let g2 := (p.2.add_edge ind p.1 (.Forget cap)).2
        CG.add_forgets_aux f g2 p.1 next

/-- `ConstraintGraph::add_forgets` from src/graph.rs. -/
def CG.add_forgets (g : CG) (ind : Nat) (node : Node) : CG :=
  CG.add_forgets_aux node.base.fields.length g ind node

/-- The per-constraint body of `ConstraintGraph::build_initial_graph`
(src/graph.rs lines 191-232): covariant copies with a `One` edge
`l -> r` added directly on the underlying graph, recall/forget chains, and
the contravariant copies with the reversed `One` edge `r -> l`. -/
def CG.build_step (g : CG) (c : Constraint) : CG :=
  let nl := g.add_node ⟨c.left, .Covariant, .None⟩
  let nr := nl.2.add_node ⟨c.right, .Covariant, .None⟩
  let g1 := nr.2.raw_add_edge nl.1 nr.1 .One
  let g2 := g1.add_recalls nl.1 ⟨c.left, .Covariant, .None⟩
  let g3 := g2.add_forgets nr.1 ⟨c.right, .Covariant, .None⟩
  let rl := g3.add_node ⟨c.left, .Contravariant, .None⟩
  let rr := rl.2.add_node ⟨c.right, .Contravariant, .None⟩
  let g4 := rr.2.raw_add_edge rr.1 rl.1 .One
  let g5 := g4.add_recalls rl.1 ⟨c.left, .Contravariant, .None⟩
  g5.add_forgets rr.1 ⟨c.right, .Contravariant, .None⟩

/-- `ConstraintGraph::build_initial_graph` from src/graph.rs. -/
def CG.build_initial_graph (g : CG) (cs : List Constraint) : CG :=
  cs.foldl CG.build_step g

/-- The reaching set of `ConstraintGraph::saturate`, flattened:
an entry `(dest, cap, src)` means `(cap, src)` is in `R(dest)`. -/
abbrev Reach := List (Nat × FieldLabel × Nat)

/-- The `add_reaching` closure of `saturate`: set insertion reporting
whether the element was new. -/
def add_reaching (r : Reach) (dest : Nat) (e : FieldLabel × Nat) :
    Bool × Reach :=
  if (dest, e.1, e.2) ∈ r then (false, r)
  else (true, r ++ [(dest, e.1, e.2)])

/-- `reaching_set.get(&n)` as a list of `(capability, source)` pairs. -/
def reach_of (r : Reach) (n : Nat) : List (FieldLabel × Nat) :=
  r.filterMap (fun t => if t.1 = n then some t.2 else none)

/-- Step 1 of `saturate` (src/graph.rs lines 247-256): seed the reaching
sets from the `Forget` edges. -/
def seed (g : CG) : Bool × Reach :=
  g.edges.foldl
    (fun acc e =>
      match e.2.2 with
      | .Forget cap =>
          let p := add_reaching acc.2 e.2.1 (cap, e.1)
          (acc.1 || p.1, p.2)
      | _ => acc)
    (false, [])

/-- The `One`-edge propagation sweep of `saturate` (lines 259-269):
for every `One` edge in insertion order, copy a snapshot of the source's
reaching set into the target's. -/
def pass_one (g : CG) (st : Bool × Reach) : Bool × Reach :=
  g.edges.foldl
    (fun acc e =>
      match e.2.2 with
      | .One =>
          (reach_of acc.2 e.1).foldl
            (fun acc2 p =>
              let q := add_reaching acc2.2 e.2.1 p
              (acc2.1 || q.1, q.2))
            acc
      | _ => acc)
    st

/-- The `to_add` collection of `saturate` (lines 270-284): each `Recall`
edge whose source's reaching set holds a matching capability contributes a
new `One` edge. -/
def recall_to_add (g : CG) (r : Reach) : List (Nat × Nat × EdgeLabel) :=
  g.edges.foldl
    (fun acc e =>
      match e.2.2 with
      | .Recall cap =>
          acc ++ (reach_of r e.1).filterMap
            (fun p => if p.1 = cap then some (p.2, e.2.1, EdgeLabel.One) else none)
      | _ => acc)
    []

/-- Applying collected edges through `ConstraintGraph::add_edge`
(lines 285-287), accumulating `changed`. -/
def apply_edges (g : CG) (l : List (Nat × Nat × EdgeLabel)) (ch : Bool) :
    Bool × CG :=
  l.foldl
    (fun acc e =>
      let p := acc.2.add_edge e.1 e.2.1 e.2.2
      (acc.1 || p.1, p.2))
    (ch, g)

/-- The `to_add_invert` collection of `saturate` (lines 288-305): every
contravariant node whose reaching set holds a `Store` (resp. `Load`) entry
schedules the dual capability for its variance-inverted twin. -/
def invert_to_add (g : CG) (r : Reach) : List (Nat × FieldLabel × Nat) :=
  (List.range g.nodes.length).foldl
    (fun acc i =>
      match g.nodes[i]? with
      | some nx =>
          if nx.suffix_variance = .Contravariant then
            acc ++ (reach_of r i).foldl
              (fun a p =>
                a ++ (if p.1 = .Store then [(p.2, FieldLabel.Load, i)] else [])
                  ++ (if p.1 = .Load then [(p.2, FieldLabel.Store, i)] else []))
              []
          else acc
      | none => acc)
    []

/-- Applying `to_add_invert` (lines 306-315): look the variance-inverted
node up in `graph_node_map` — the Rust code calls `.unwrap()` on the
result, so a missing node is a panic, embedded as `none`. -/
def apply_invert (g : CG) (l : List (Nat × FieldLabel × Nat))
    (st : Bool × Reach) : Option (Bool × Reach) :=
  l.foldlM
    (fun acc t =>
      match g.nodes[t.2.2]? with
      | some nd =>
          let inv : Node := { nd with suffix_variance := nd.suffix_variance.invert }
          match findIdx g.nodes inv with
          | some j =>
              let p := add_reaching acc.2 j (t.2.1, t.1)
              some (acc.1 || p.1, p.2)
          | none => none
      | none => none)
    st

/-- Result of running `saturate`: a finished graph, a panic (failed
`unwrap`), or an exhausted fuel budget (the Rust loop still running). -/
inductive SatRes
  | ok (g : CG)
  | panic
  | fuelOut
deriving DecidableEq, Repr

/-- One iteration of the `while changed` body of `saturate`:
propagate along `One` edges, add cancelled `Recall` edges, then process
the variance-inversion rule. -/
def sat_pass (g : CG) (r : Reach) : Option (CG × Reach × Bool) :=
  let s1 := pass_one g (false, r)
  let ta := recall_to_add g s1.2
  let p2 := apply_edges g ta s1.1
  let ti := invert_to_add p2.2 s1.2
  match apply_invert p2.2 ti (p2.1, s1.2) with
  | some st => some (p2.2, st.2, st.1)
  | none => none

/-- The `while changed` loop of `saturate`, with fuel. -/
def sat_loop : Nat → CG → Reach → Bool → SatRes
  | _, g, _, false => .ok g
  | 0, _, _, true => .fuelOut
  | fuel + 1, g, r, true =>
    match sat_pass g r with
    | none => .panic
    | some (g2, r2, ch) => sat_loop fuel g2 r2 ch

/-- `ConstraintGraph::saturate` from src/graph.rs, with fuel. -/
def saturateF (fuel : Nat) (g : CG) : SatRes :=
  let s := seed g
  sat_loop fuel g s.2 s.1

/-- `ConstraintGraph::new` from src/graph.rs: build the initial graph,
then saturate. -/
def cg_newF (fuel : Nat) (cs : List Constraint) : SatRes :=
  saturateF fuel (emptyCG.build_initial_graph cs)

/-- Shorthand for a derived type variable. -/
def dtv (s : String) (fs : List FieldLabel) : DerivedTypeVariable := ⟨s, fs⟩

/-- The covariant, unmarked graph node of a DTV. -/
def covNode (d : DerivedTypeVariable) : Node := ⟨d, .Covariant, .None⟩

/-- Whether the graph has a `One` edge between the covariant unmarked
nodes of two DTVs (the check of the `test_saturation` test). -/
def has_one_edge (g : CG) (a b : DerivedTypeVariable) : Bool :=
  match findIdx g.nodes (covNode a), findIdx g.nodes (covNode b) with
  | some i, some j => decide ((i, j, EdgeLabel.One) ∈ g.edges)
  | _, _ => false

/-- `has_one_edge` through a saturation result. -/
def sat_has_one (res : SatRes) (a b : DerivedTypeVariable) : Bool :=
  match res with
  | .ok g => has_one_edge g a b
  | _ => false

/-- The four constraints of the `test_saturation` regression test:
`y <= p`, `p <= x`, `_A <= x.store`, `y.load <= _B`. -/
def cs_sat : List Constraint :=
  [⟨dtv "y" [], dtv "p" []⟩,
   ⟨dtv "p" [], dtv "x" []⟩,
   ⟨dtv "_A" [], dtv "x" [.Store]⟩,
   ⟨dtv "y" [.Load], dtv "_B" []⟩]

/-! ### List-extension infrastructure

Every mutation the builder and the saturation engine perform on the graph
appends to the node or edge list; these lemmas capture that and its
consequences (stability of indices, memberships and counts). -/

/-- `l2` extends `l1` by a suffix. -/
def lext {α : Type} (l1 l2 : List α) : Prop := ∃ t, l2 = l1 ++ t

/-- The graph `g2` extends `g1` by appended nodes and edges. -/
def CG.Extends (g1 g2 : CG) : Prop :=
  lext g1.nodes g2.nodes ∧ lext g1.edges g2.edges

/-- The two constraints of the transitivity scenario: `a <= b`, `b <= c`. -/
def cs_trans : List Constraint :=
  [⟨dtv "a" [], dtv "b" []⟩, ⟨dtv "b" [], dtv "c" []⟩]

/-- A hand-built graph state in which the variance-inversion rule fires for
the contravariant node of `a` while the covariant twin of `a` is absent
from the node map: one `Forget Store` edge into `a`'s contravariant node
seeds the reaching set, and no other node exists besides an unrelated one. -/
def bad_cg : CG :=
  ⟨[⟨dtv "a" [], .Contravariant, .None⟩, ⟨dtv "b" [], .Covariant, .None⟩],
   [(1, 0, .Forget .Store)]⟩

/-! ### The shape/sketch unifier of `Solver::infer_shapes` (src/solver.rs)

The step graph `G` is a `DiGraph<Node, FieldLabel>` whose node weights are
DTVs with a mutable `represent : Option<NodeIndex>` back-reference;
it is embedded as a DTV list (position = index), a parallel list of
representative pointers and the edge list.  `gm : HashMap<DTV, NodeIndex>`
is kept in lockstep with node insertion and embedded as `findIdx` over the
DTV list.  The `find_equiv_group` chase and the recursive `unify` carry a
fuel parameter; `none` means the Rust loop/recursion has not finished. -/

/-- The step graph with union-find state of `infer_shapes`. -/
structure UState where
  dtvs : List DerivedTypeVariable
  reps : List (Option Nat)
  sedges : List (Nat × Nat × FieldLabel)
deriving DecidableEq, Repr

/-- The `represent` field of node `i`. -/
def rep_of (s : UState) (i : Nat) : Option Nat := (s.reps.getD i none)

/-- Assign `represent := some r` to node `i`. -/
def set_rep (s : UState) (i r : Nat) : UState :=
  { s with reps := s.reps.set i (some r) }

/-- The representative-chasing `while` loop of `find_equiv_group`
(src/solver.rs lines 44-49), collecting the visited indices.  Rust runs it
unboundedly; fuel `0` models a loop that has not terminated. -/
def chase : Nat → UState → Nat → List Nat → Option (Nat × List Nat)
  | 0, _, _, _ => none
  | f + 1, s, ind, acc =>
    match rep_of s ind with
    | none => some (ind, acc)
    | some r => if r = ind then some (ind, acc) else chase f s r (acc ++ [ind])

/-- `find_equiv_group` from src/solver.rs: chase to the root, then point
every visited node (other than the root) directly at the root. -/
def find_equiv_group (fuel : Nat) (s : UState) (ind : Nat) :
    Option (UState × Nat) :=
  (chase fuel s ind []).map fun p =>
    (p.2.foldl (fun s2 i => if i ≠ p.1 then set_rep s2 i p.1 else s2) s, p.1)

/-- Outgoing edges of `x` (`edges_directed(x, Outgoing)`), in insertion
order.  petgraph iterates this list most-recent-first; only the order of
the collected `to_unify` pairs depends on it, and every claim proved below
is insensitive to that order. -/
def out_edges (s : UState) (x : Nat) : List (Nat × Nat × FieldLabel) :=
  s.sedges.filter (fun e => decide (e.1 = x))

/-- The label comparison of `unify`: equal labels, or the `Load`/`Store`
dual pair. -/
def label_match (a b : FieldLabel) : Bool :=
  decide (a = b) || (decide (a = FieldLabel.Load) && decide (b = FieldLabel.Store))
    || (decide (a = FieldLabel.Store) && decide (b = FieldLabel.Load))

/-- The `to_unify` collection of `unify` (src/solver.rs lines 65-92). -/
def collect_pairs (s : UState) (x y : Nat) : List (Nat × Nat) :=
  (out_edges s x).foldl
    (fun acc ex =>
      acc ++ (out_edges s y).filterMap
        (fun ey => if label_match ex.2.2 ey.2.2 then some (ex.2.1, ey.2.1) else none))
    []

/-- `unify` from src/solver.rs: if `x != y`, make `x` the representative
of `y`, then recursively unify the targets of every label-matching pair of
outgoing edges.  The recursion depth carries fuel. -/
def unify : Nat → UState → Nat → Nat → Option UState
  | 0, _, _, _ => none
  | f + 1, s, x, y =>
    if x = y then some s
    else
      let s1 := set_rep s y x
      (collect_pairs s1 x y).foldlM (fun st p => unify f st p.1 p.2) s1

/-- Insert a fresh node for a DTV (`g.add_node` + `gm.insert` in lockstep,
`represent: None`). -/
def ensure_new (s : UState) (d : DerivedTypeVariable) : UState :=
  { s with dtvs := s.dtvs ++ [d], reps := s.reps ++ [none] }

/-- The per-prefix body of step 1 of `infer_shapes` (src/solver.rs lines
116-157) for one side DTV: walk the prefixes, ensuring nodes and one
labelled step edge per prefix extension. -/
def shape_side (fuel : Nat) (s : UState) (d : DerivedTypeVariable) :
    Option UState :=
  if d.fields.length = 0 then
    match findIdx s.dtvs d with
    | some _ => some s
    | none => some (ensure_new s d)
  else
    (d.fields.enum.foldlM
      (fun (st : UState × Option Nat) (ke : Nat × FieldLabel) => do
        let s := st.1
        let dtv_l := d.get_sub_dtv ke.1
        let (s, node_id) ←
          match st.2 with
          | some pid => some (s, pid)
          | none =>
            match findIdx s.dtvs dtv_l with
            | some gi => find_equiv_group fuel s gi
            | none => some (ensure_new s dtv_l, s.dtvs.length)
        let dtv_r := d.get_sub_dtv (ke.1 + 1)
        let (s, new_id) ←
          match findIdx s.dtvs dtv_r with
          | some gi => find_equiv_group fuel s gi
          | none => some (ensure_new s dtv_r, s.dtvs.length)
        let s :=
          if (s.sedges.any fun e =>
              decide (e.1 = node_id) && decide (e.2.1 = new_id)
                && decide (e.2.2 = ke.2)) then s
          else { s with sedges := s.sedges ++ [(node_id, new_id, ke.2)] }
        pure (s, some new_id))
      (s, none)).map Prod.fst

/-- Step 1 of `infer_shapes`: build the step graph `G` from every
constraint's two sides. -/
def shape_build (fuel : Nat) (cs : List Constraint) : Option UState :=
  cs.foldlM
    (fun s c => do
      let s ← shape_side fuel s c.left
      shape_side fuel s c.right)
    ⟨[], [], []⟩

/-- Step 2 of `infer_shapes` (src/solver.rs lines 168-176): for each
constraint, find both representatives and unify them. -/
def unify_cons (fuel : Nat) (s : UState) (cs : List Constraint) :
    Option UState :=
  cs.foldlM
    (fun s c => do
      let gi ← findIdx s.dtvs c.left
      let (s, x) ← find_equiv_group fuel s gi
      let gj ← findIdx s.dtvs c.right
      let (s, y) ← find_equiv_group fuel s gj
      unify fuel s x y)
    s

/-- Steps 1 and 2 of `infer_shapes` composed. -/
def unify_stage (fuel : Nat) (cs : List Constraint) : Option UState :=
  (shape_build fuel cs).bind fun s => unify_cons fuel s cs

/-- The quotient graph of step 3 of `infer_shapes`: classes of DTVs,
edges, and the association list from representative index to class. -/
structure QState where
  qnodes : List (List DerivedTypeVariable)
  qedges : List (Nat × Nat × FieldLabel)
  qmap : List (Nat × Nat)
deriving DecidableEq, Repr

/-- `gm_quotient.get(&rep)`. -/
def assoc_get (m : List (Nat × Nat)) (k : Nat) : Option Nat :=
  (m.find? fun p => decide (p.1 = k)).map (·.2)

/-- One iteration of the quotient-node loop of step 3 (src/solver.rs lines
182-196): resolve node `i`'s final representative and group its DTV into
the representative's class. -/
def quot_step (fuel : Nat) (st : UState × QState) (i : Nat) :
    Option (UState × QState) := do
  let (s, q) := st
  let (s, rep) ← find_equiv_group fuel s i
  let d ← s.dtvs[i]?
  match assoc_get q.qmap rep with
  | none =>
      pure (s, ⟨q.qnodes ++ [[d]], q.qedges, q.qmap ++ [(rep, q.qnodes.length)]⟩)
  | some qi =>
      pure (s, { q with qnodes := q.qnodes.set qi ((q.qnodes.getD qi []) ++ [d]) })

/-- The quotient-node loop of step 3: group every node's DTV into the
class of its final representative. -/
def quot_nodes (fuel : Nat) (s : UState) : Option (UState × QState) :=
  (List.range s.dtvs.length).foldlM (quot_step fuel) (s, ⟨[], [], []⟩)

/-- The quotient-edge loop of step 3 (src/solver.rs lines 198-211): every
`G` edge is re-projected onto the classes of its endpoints' final
representatives with `g_quotient.add_edge` — petgraph's `add_edge`, which
performs no duplicate check. -/
def quot_edges (fuel : Nat) (s : UState) (q : QState) :
    Option (UState × QState) :=
  s.sedges.foldlM
    (fun (st : UState × QState) e => do
      let (s, q) := st
      let (s, sr) ← find_equiv_group fuel s e.1
      let (s, tr) ← find_equiv_group fuel s e.2.1
      let sq ← assoc_get q.qmap sr
      let tq ← assoc_get q.qmap tr
      pure (s, { q with qedges := q.qedges ++ [(sq, tq, e.2.2)] }))
    (s, q)

/-- `Solver::infer_shapes` from src/solver.rs for one procedure's
constraint list (the Rust code folds the same per-constraint bodies over
`proc_constraints`; the claims below use a single-procedure program):
build the step graph, unify along the constraints, then quotient. -/
def infer_shapes (fuel : Nat) (cs : List Constraint) : Option QState :=
  (unify_stage fuel cs).bind fun s =>
    (quot_nodes fuel s).bind fun p =>
      (quot_edges fuel p.1 p.2).map fun r => r.2

/-- The two constraints that merge `a` with `b` after their `load`
children were already unified: `a.load <= b.load`, `a <= b`. -/
def cs4 : List Constraint :=
  [⟨dtv "a" [.Load], dtv "b" [.Load]⟩, ⟨dtv "a" [], dtv "b" []⟩]

/-- Whether a quotient graph has at most one edge per
`(source, target, label)` triple. -/
def dup_free (q : QState) : Bool :=
  q.qedges.all fun e => decide (q.qedges.count e ≤ 1)

/-- `dup_free` through the optional result of `infer_shapes` (a run that
does not complete has no quotient graph to inspect). -/
def quot_dup_free : Option QState → Bool
  | some q => dup_free q
  | none => true

/-- The two constraints that drive the union-find into a representative
cycle: `p.load <= q.load` first makes `p.load` the representative of
`q.load`; `q <= p` then makes `q` the representative of `p` and the
recursive child unification makes `q.load` the representative of
`p.load`. -/
def cs5 : List Constraint :=
  [⟨dtv "p" [.Load], dtv "q" [.Load]⟩, ⟨dtv "q" [], dtv "p" []⟩]

/-- The unifier state after steps 1 and 2 of `infer_shapes` on `cs5`:
nodes `p, p.load, q, q.load`; the representative pointers of `p.load`
(index 1) and `q.load` (index 3) form a two-cycle. -/
def s5 : UState :=
  ⟨[dtv "p" [], dtv "p" [.Load], dtv "q" [], dtv "q" [.Load]],
   [some 2, some 3, none, some 1],
   [(0, 1, .Load), (2, 3, .Load)]⟩

/-! ### The textual grammar (src/parser.rs) and the display forms
(src/schema.rs)

The nom parsers work on `&str`; they are embedded over `List Char`.
`u32`/`i32` parsing (`map_res(digit1, from_str)` and the signed variant)
keeps the machine range checks: a decimal number outside the range makes
the parser fail, exactly as `from_str` does. -/

abbrev Text := List Char

/-- A decimal digit character. -/
def digitChar (d : Nat) : Char :=
  match d with
  | 0 => '0' | 1 => '1' | 2 => '2' | 3 => '3' | 4 => '4'
  | 5 => '5' | 6 => '6' | 7 => '7' | 8 => '8' | _ => '9'

/-- Decimal digit expansion with fuel; dividing by ten at each step, a
fuel of `n + 1` is always sufficient. -/
def decDigitsF : Nat → Nat → List Char
  | 0, _ => []
  | fu + 1, n =>
    if n < 10 then [digitChar n]
    else decDigitsF fu (n / 10) ++ [digitChar (n % 10)]

/-- The decimal digits of `n`, most significant first — the text the `{}`
formatting of an unsigned integer produces. -/
def decDigits (n : Nat) : List Char := decDigitsF (n + 1) n

/-- The `{}` formatting of an `i32`: a minus sign for negatives, then the
decimal digits of the absolute value. -/
def fmtInt (i : Int) : Text :=
  if i < 0 then '-' :: decDigits i.natAbs else decDigits i.toNat

/-- `Display for Bound` from src/schema.rs: `Fixed(i)` prints `*[i]`, but
`NullTerm` and `NoBound` print bare words without the `*[ ]` wrapper. -/
def fmtBound : Bound → Text
  | .Fixed n => '*' :: '[' :: (decDigits n ++ [']'])
  | .NullTerm => "nullterm".toList
  | .NoBound => "nobound".toList

/-- `Display for FieldLabel` from src/schema.rs. -/
def fmtFL : FieldLabel → Text
  | .InPattern i => "in_".toList ++ decDigits i
  | .OutPattern i => "out_".toList ++ decDigits i
  | .DerefPattern s o b =>
      "σ".toList ++ decDigits s ++ ['@'] ++ fmtInt o ++
        (match b with
         | none => []
         | some bd => fmtBound bd)
  | .Load => "load".toList
  | .Store => "store".toList

/-- The per-field part of `Display for DerivedTypeVariable`: each field is
printed as `.{field}`. -/
def fieldsText (fs : List FieldLabel) : Text :=
  (fs.map fun f => '.' :: fmtFL f).flatten

/-- `Display for DerivedTypeVariable` from src/schema.rs. -/
def fmtDTV (d : DerivedTypeVariable) : Text :=
  d.name.toList ++ fieldsText d.fields

/-- nom's `digit1` character class. -/
def isDigitC (c : Char) : Bool := decide ('0' ≤ c) && decide (c ≤ '9')

/-- Numeric value of a digit character. -/
def digitVal (c : Char) : Nat := c.toNat - 48

/-- Value of a digit run, most significant first. -/
def valDigits (ds : List Char) : Nat :=
  ds.foldl (fun a c => a * 10 + digitVal c) 0

/-- nom's `digit1` followed by numeric conversion: take a nonempty run of
leading digits. -/
def parseDigits (t : Text) : Option (Nat × Text) :=
  let ds := t.takeWhile isDigitC
  if ds.isEmpty then none else some (valDigits ds, t.dropWhile isDigitC)

/-- `map_res(digit1, u32::from_str)`: fails outside the `u32` range. -/
def parseU32 (t : Text) : Option (Nat × Text) :=
  (parseDigits t).bind fun p => if p.1 < 2 ^ 32 then some p else none

/-- `parse_i32` from src/parser.rs: `recognize(opt(tag "-"), digit1)` fed
to `i32::from_str`, which fails outside the `i32` range. -/
def parseI32 (t : Text) : Option (Int × Text) :=
  if t.head? = some '-' then
    (parseDigits t.tail).bind fun p =>
      if (2 ^ 31 : Nat) < p.1 then none else some (-(p.1 : Int), p.2)
  else
    (parseDigits t).bind fun p =>
      if p.1 < 2 ^ 31 then some ((p.1 : Int), p.2) else none

/-- nom's `tag`: consume an exact prefix. -/
def tagP (pat t : Text) : Option Text :=
  if pat.isPrefixOf t then some (t.drop pat.length) else none

/-- nom's `char`: consume one exact character. -/
def charP (c : Char) (t : Text) : Option Text :=
  match t with
  | [] => none
  | a :: r => if a = c then some r else none

/-- `parse_in_pattern` from src/parser.rs. -/
def parse_in_pattern (t : Text) : Option (FieldLabel × Text) :=
  (tagP "in_".toList t).bind fun r =>
    (parseU32 r).map fun p => (FieldLabel.InPattern p.1, p.2)

/-- `parse_out_pattern` from src/parser.rs: `out_<uint>` first, then the
bare `out` alternative mapped to `OutPattern(0)`. -/
def parse_out_pattern (t : Text) : Option (FieldLabel × Text) :=
  match (tagP "out_".toList t).bind fun r =>
      (parseU32 r).map fun p => (FieldLabel.OutPattern p.1, p.2) with
  | some x => some x
  | none => (tagP "out".toList t).map fun r => (FieldLabel.OutPattern 0, r)

/-- The bound body of `parse_deref_pattern`: `*[` then
`nullterm | nobound | <uint>` then `]`. -/
def parse_bound_core (t : Text) : Option (Bound × Text) :=
  (tagP "*[".toList t).bind fun r =>
    ((match tagP "nullterm".toList r with
      | some r2 => some (Bound.NullTerm, r2)
      | none =>
        match tagP "nobound".toList r with
        | some r2 => some (Bound.NoBound, r2)
        | none => (parseU32 r).map fun p => (Bound.Fixed p.1, p.2)) :
          Option (Bound × Text)).bind
      fun p => (charP ']' p.2).map fun r2 => (p.1, r2)

/-- nom's `opt` around the bound: a failing bound parse consumes nothing. -/
def parse_bound_opt (t : Text) : Option Bound × Text :=
  match parse_bound_core t with
  | some (b, r) => (some b, r)
  | none => (none, t)

/-- `parse_deref_pattern` from src/parser.rs. -/
def parse_deref_pattern (t : Text) : Option (FieldLabel × Text) :=
  (tagP "σ".toList t).bind fun r1 =>
    (parseU32 r1).bind fun ps =>
      (charP '@' ps.2).bind fun r2 =>
        (parseI32 r2).bind fun po =>
          let pb := parse_bound_opt po.2
          some (FieldLabel.DerefPattern ps.1 po.1 pb.1, pb.2)

/-- `parse_load` from src/parser.rs. -/
def parse_load (t : Text) : Option (FieldLabel × Text) :=
  (tagP "load".toList t).map fun r => (FieldLabel.Load, r)

/-- `parse_store` from src/parser.rs. -/
def parse_store (t : Text) : Option (FieldLabel × Text) :=
  (tagP "store".toList t).map fun r => (FieldLabel.Store, r)

/-- `parse_field_label` from src/parser.rs: `alt` tries the five parsers
in source order. -/
def parse_field_label (t : Text) : Option (FieldLabel × Text) :=
  match parse_in_pattern t with
  | some x => some x
  | none =>
    match parse_out_pattern t with
    | some x => some x
    | none =>
      match parse_deref_pattern t with
      | some x => some x
      | none =>
        match parse_load t with
        | some x => some x
        | none => parse_store t

/-- The identifier character class: not whitespace, not `.`. -/
def isIdentChar (c : Char) : Bool := !c.isWhitespace && decide (c ≠ '.')

/-- `parse_identifier` from src/parser.rs (`take_while1`). -/
def parse_identifier (t : Text) : Option (String × Text) :=
  let s := t.takeWhile isIdentChar
  if s.isEmpty then none else some (⟨s⟩, t.dropWhile isIdentChar)

/-- The `many0(preceded(char '.', parse_field_label))` loop of
`parse_derived_type_variable`, with fuel.  Every iteration consumes the
dot plus at least one field-label character, so the text length used as
the initial fuel in `parse_derived_type_variable` is never exhausted
first. -/
def parse_fields_f : Nat → Text → List FieldLabel × Text
  | 0, t => ([], t)
  | fu + 1, t =>
    match t with
    | '.' :: rest =>
      match parse_field_label rest with
      | some (f, r) =>
        let p := parse_fields_f fu r
        (f :: p.1, p.2)
      | none => ([], t)
    | _ => ([], t)

/-- `parse_derived_type_variable` from src/parser.rs. -/
def parse_derived_type_variable (t : Text) : Option (DerivedTypeVariable × Text) :=
  match parse_identifier t with
  | none => none
  | some (name, r) =>
    let p := parse_fields_f r.length r
    some (⟨name, p.1⟩, p.2)

/-- The field labels (and DTVs built from them) whose display form the
grammar can read back: everything except a `DerefPattern` bound of
`NullTerm` or `NoBound`, whose display omits the `*[ ]` wrapper the
grammar requires; numeric payloads stay within the machine ranges the
parser enforces. -/
def goodBound : Option Bound → Prop
  | none => True
  | some (.Fixed k) => k < 2 ^ 32
  | some _ => False

def goodFL : FieldLabel → Prop
  | .InPattern n => n < 2 ^ 32
  | .OutPattern n => n < 2 ^ 32
  | .DerefPattern s o b =>
      s < 2 ^ 32 ∧ -(2 ^ 31 : Int) ≤ o ∧ o < 2 ^ 31 ∧ goodBound b
  | .Load => True
  | .Store => True

/-- A name the identifier parser reads back exactly: nonempty, no
whitespace, no dot. -/
def goodName (s : String) : Prop :=
  s.toList ≠ [] ∧ ∀ c ∈ s.toList, isIdentChar c = true

/-- The rest of the text after one displayed field label inside a
displayed DTV: empty or starting with the next `.`. -/
def dotStops (rest : Text) : Prop := rest = [] ∨ ∃ t, rest = '.' :: t

/-- Whether a field label survives the display-then-parse round trip with
nothing left over. -/
def round_fl (v : FieldLabel) : Bool :=
  decide (parse_field_label (fmtFL v) = some (v, []))

/-- The first character of `r` (if any) fails the predicate `p`. -/
def stops (p : Char → Bool) (r : Text) : Prop :=
  ∀ c, r.head? = some c → p c = false

/-! ### The scheduling driver `infer_proc_types` (src/graph.rs lines
320-344)

`condensation` and `toposort` are petgraph library calls; their documented
contracts (every cross-component call-graph edge yields a condensation
edge, and the returned order lists every edge's source before its target)
enter the theorems below as hypotheses.  The code's own contribution is
the iteration order `topo_sort.iter().rev()`. -/

/-- The order in which `infer_proc_types` hands SCCs to
`ConstraintGraph::new`: the reverse of the topological sort. -/
def proc_order (topo : List Nat) : List Nat := topo.reverse

/-- `x` occurs strictly before `y` in `l`. -/
def before_in (l : List Nat) (x y : Nat) : Prop := [x, y].Sublist l

/-- The SCC assignment of the witness call graph: `f` in component 0,
`g` in component 1. -/
def sccOf_w : String → Nat := fun s => if s = "g" then 1 else 0

theorem lext_refl {α : Type} (l : List α) : lext l l := ⟨[], by simp⟩

theorem lext_trans {α : Type} {l1 l2 l3 : List α} (h1 : lext l1 l2)
    (h2 : lext l2 l3) : lext l1 l3 := by
  obtain ⟨t1, rfl⟩ := h1
  obtain ⟨t2, rfl⟩ := h2
  exact ⟨t1 ++ t2, by simp⟩

theorem lext_mem {α : Type} {l1 l2 : List α} {a : α} (h : lext l1 l2)
    (ha : a ∈ l1) : a ∈ l2 := by
  obtain ⟨t, rfl⟩ := h
  exact List.mem_append_left _ ha

theorem lext_getElem {α : Type} {l1 l2 : List α} {i : Nat} {a : α}
    (h : lext l1 l2) (ha : l1[i]? = some a) : l2[i]? = some a := by
  obtain ⟨t, rfl⟩ := h
  have hi : i < l1.length := by
    rw [List.getElem?_eq_some] at ha
    exact ha.1
  rw [List.getElem?_append_left hi]
  exact ha

theorem lext_count {α : Type} [BEq α] {l1 l2 : List α} {a : α}
    (h : lext l1 l2) : l1.count a ≤ l2.count a := by
  obtain ⟨t, rfl⟩ := h
  rw [List.count_append]
  exact Nat.le_add_right _ _

theorem findIdx_getElem {α : Type} [DecidableEq α] {l : List α} {x : α}
    {i : Nat} (h : findIdx l x = some i) : l[i]? = some x := by
  induction l generalizing i with
  | nil => simp [findIdx] at h
  | cons a t ih =>
    by_cases hax : a = x
    · simp only [findIdx, if_pos hax] at h
      cases h
      simpa using hax
    · simp only [findIdx, if_neg hax, Option.map_eq_some'] at h
      obtain ⟨j, hj, rfl⟩ := h
      simpa using ih hj

theorem findIdx_nmem {α : Type} [DecidableEq α] {l : List α} {x : α}
    (h : findIdx l x = none) : x ∉ l := by
  induction l with
  | nil => simp
  | cons a t ih =>
    by_cases hax : a = x
    · simp [findIdx, if_pos hax] at h
    · simp only [findIdx, if_neg hax, Option.map_eq_none'] at h
      simp [ih h, Ne.symm hax]

theorem findIdx_of_getElem {α : Type} [DecidableEq α] {l : List α} {x : α}
    {i : Nat} (hnd : l.Nodup) (h : l[i]? = some x) : findIdx l x = some i := by
  induction l generalizing i with
  | nil => simp at h
  | cons a t ih =>
    cases i with
    | zero =>
      simp only [List.getElem?_cons_zero, Option.some.injEq] at h
      simp [findIdx, h]
    | succ j =>
      simp only [List.getElem?_cons_succ] at h
      have hx : x ∈ t := List.getElem?_mem h
      have hax : a ≠ x := by
        intro hax
        exact (List.nodup_cons.mp hnd).1 (hax ▸ hx)
      simp [findIdx, if_neg hax, ih (List.nodup_cons.mp hnd).2 h]

theorem getElem_inj_nodup {α : Type} [DecidableEq α] {l : List α} {x : α}
    {i j : Nat} (hnd : l.Nodup) (hi : l[i]? = some x) (hj : l[j]? = some x) :
    i = j := by
  have h1 := findIdx_of_getElem hnd hi
  have h2 := findIdx_of_getElem hnd hj
  rw [h1] at h2
  exact (Option.some.injEq _ _).mp h2

theorem findIdx_append_self {α : Type} [DecidableEq α] {l : List α} {x : α}
    (h : findIdx l x = none) : findIdx (l ++ [x]) x = some l.length := by
  induction l with
  | nil => simp [findIdx]
  | cons a t ih =>
    by_cases hax : a = x
    · simp [findIdx, if_pos hax] at h
    · simp only [findIdx, if_neg hax, Option.map_eq_none'] at h
      simp [findIdx, if_neg hax, ih h]

theorem cg_ext_refl (g : CG) : g.Extends g := ⟨lext_refl _, lext_refl _⟩

theorem cg_ext_trans {g1 g2 g3 : CG} (h1 : g1.Extends g2)
    (h2 : g2.Extends g3) : g1.Extends g3 :=
  ⟨lext_trans h1.1 h2.1, lext_trans h1.2 h2.2⟩

theorem add_node_ext (g : CG) (n : Node) : g.Extends (g.add_node n).2 := by
  unfold CG.add_node
  cases h : findIdx g.nodes n with
  | some i => exact cg_ext_refl g
  | none => exact ⟨⟨[n], rfl⟩, lext_refl _⟩

theorem add_node_getElem (g : CG) (n : Node) :
    (g.add_node n).2.nodes[(g.add_node n).1]? = some n := by
  unfold CG.add_node
  cases h : findIdx g.nodes n with
  | some i => exact findIdx_getElem h
  | none => exact List.getElem?_concat_length g.nodes n

theorem add_node_nodup {g : CG} (h : g.nodes.Nodup) (n : Node) :
    (g.add_node n).2.nodes.Nodup := by
  unfold CG.add_node
  cases hf : findIdx g.nodes n with
  | some i => exact h
  | none => simp [List.nodup_append, h, findIdx_nmem hf]

/-- `add_node` is idempotent on equal keys: re-adding returns the same
index and the unchanged graph. -/
theorem add_node_twice (g : CG) (n : Node) :
    (g.add_node n).2.add_node n = ((g.add_node n).1, (g.add_node n).2) := by
  unfold CG.add_node
  cases hf : findIdx g.nodes n with
  | some i => simp [CG.add_node, hf]
  | none => simp [CG.add_node, findIdx_append_self hf]

theorem add_edge_ext (g : CG) (a b : Nat) (l : EdgeLabel) :
    g.Extends (g.add_edge a b l).2 := by
  unfold CG.add_edge
  by_cases hab : a = b
  · simp only [if_pos hab]
    exact cg_ext_refl g
  · simp only [if_neg hab]
    by_cases hm : (a, b, l) ∈ g.edges
    · simp only [if_pos hm]
      exact cg_ext_refl g
    · simp only [if_neg hm]
      exact ⟨lext_refl _, ⟨[(a, b, l)], rfl⟩⟩

theorem add_edge_nodes (g : CG) (a b : Nat) (l : EdgeLabel) :
    (g.add_edge a b l).2.nodes = g.nodes := by
  unfold CG.add_edge
  by_cases hab : a = b
  · simp [if_pos hab]
  · by_cases hm : (a, b, l) ∈ g.edges <;> simp [if_neg hab, hm]

theorem raw_add_edge_ext (g : CG) (a b : Nat) (l : EdgeLabel) :
    g.Extends (g.raw_add_edge a b l) :=
  ⟨lext_refl _, ⟨[(a, b, l)], rfl⟩⟩

theorem add_recalls_aux_ext (f : Nat) (g : CG) (ind : Nat) (node : Node) :
    g.Extends (CG.add_recalls_aux f g ind node) := by
  induction f generalizing g ind node with
  | zero => exact cg_ext_refl g
  | succ f ih =>
    unfold CG.add_recalls_aux
    cases node.forget_once with
    | none => exact cg_ext_refl g
    | some p =>
      exact cg_ext_trans (add_node_ext g p.2)
        (cg_ext_trans (add_edge_ext _ _ _ _) (ih _ _ _))

theorem add_forgets_aux_ext (f : Nat) (g : CG) (ind : Nat) (node : Node) :
    g.Extends (CG.add_forgets_aux f g ind node) := by
  induction f generalizing g ind node with
  | zero => exact cg_ext_refl g
  | succ f ih =>
    unfold CG.add_forgets_aux
    cases node.forget_once with
    | none => exact cg_ext_refl g
    | some p =>
      exact cg_ext_trans (add_node_ext g p.2)
        (cg_ext_trans (add_edge_ext _ _ _ _) (ih _ _ _))

theorem add_recalls_ext (g : CG) (ind : Nat) (node : Node) :
    g.Extends (g.add_recalls ind node) :=
  add_recalls_aux_ext _ g ind node

theorem add_forgets_ext (g : CG) (ind : Nat) (node : Node) :
    g.Extends (g.add_forgets ind node) :=
  add_forgets_aux_ext _ g ind node

theorem add_recalls_aux_nodup {g : CG} (h : g.nodes.Nodup) (f : Nat)
    (ind : Nat) (node : Node) : (CG.add_recalls_aux f g ind node).nodes.Nodup := by
  induction f generalizing g ind node with
  | zero => exact h
  | succ f ih =>
    unfold CG.add_recalls_aux
    cases node.forget_once with
    | none => exact h
    | some p =>
      have h1 := add_node_nodup h p.2
      rw [← add_edge_nodes (g.add_node p.2).2 (g.add_node p.2).1 ind
        (.Recall p.1)] at h1
      exact ih h1 _ _

theorem add_forgets_aux_nodup {g : CG} (h : g.nodes.Nodup) (f : Nat)
    (ind : Nat) (node : Node) : (CG.add_forgets_aux f g ind node).nodes.Nodup := by
  induction f generalizing g ind node with
  | zero => exact h
  | succ f ih =>
    unfold CG.add_forgets_aux
    cases node.forget_once with
    | none => exact h
    | some p =>
      have h1 := add_node_nodup h p.2
      rw [← add_edge_nodes (g.add_node p.2).2 ind (g.add_node p.2).1
        (.Forget p.1)] at h1
      exact ih h1 _ _

theorem build_step_ext (g : CG) (c : Constraint) : g.Extends (g.build_step c) := by
  unfold CG.build_step
  exact cg_ext_trans (add_node_ext _ _)
    (cg_ext_trans (add_node_ext _ _)
      (cg_ext_trans (raw_add_edge_ext _ _ _ _)
        (cg_ext_trans (add_recalls_ext _ _ _)
          (cg_ext_trans (add_forgets_ext _ _ _)
            (cg_ext_trans (add_node_ext _ _)
              (cg_ext_trans (add_node_ext _ _)
                (cg_ext_trans (raw_add_edge_ext _ _ _ _)
                  (cg_ext_trans (add_recalls_ext _ _ _)
                    (add_forgets_ext _ _ _)))))))))

theorem add_recalls_nodup {g : CG} (h : g.nodes.Nodup) (ind : Nat)
    (node : Node) : (g.add_recalls ind node).nodes.Nodup :=
  add_recalls_aux_nodup h _ ind node

theorem add_forgets_nodup {g : CG} (h : g.nodes.Nodup) (ind : Nat)
    (node : Node) : (g.add_forgets ind node).nodes.Nodup :=
  add_forgets_aux_nodup h _ ind node

theorem raw_add_edge_nodes (g : CG) (a b : Nat) (l : EdgeLabel) :
    (g.raw_add_edge a b l).nodes = g.nodes := rfl

theorem build_step_nodup {g : CG} (h : g.nodes.Nodup) (c : Constraint) :
    (g.build_step c).nodes.Nodup := by
  unfold CG.build_step
  apply add_forgets_nodup
  apply add_recalls_nodup
  rw [raw_add_edge_nodes]
  apply add_node_nodup
  apply add_node_nodup
  apply add_forgets_nodup
  apply add_recalls_nodup
  rw [raw_add_edge_nodes]
  apply add_node_nodup
  apply add_node_nodup
  exact h

theorem build_ext (g : CG) (cs : List Constraint) :
    g.Extends (g.build_initial_graph cs) := by
  induction cs generalizing g with
  | nil => exact cg_ext_refl g
  | cons c t ih =>
    exact cg_ext_trans (build_step_ext g c) (ih (g.build_step c))

theorem build_nodup {g : CG} (h : g.nodes.Nodup) (cs : List Constraint) :
    (g.build_initial_graph cs).nodes.Nodup := by
  induction cs generalizing g with
  | nil => exact h
  | cons c t ih => exact ih (build_step_nodup h c)

theorem apply_edges_nodes (l : List (Nat × Nat × EdgeLabel)) (g : CG)
    (ch : Bool) : (apply_edges g l ch).2.nodes = g.nodes := by
  induction l generalizing g ch with
  | nil => rfl
  | cons e t ih =>
    simp only [apply_edges, List.foldl_cons]
    exact (ih (g.add_edge e.1 e.2.1 e.2.2).2 _).trans (add_edge_nodes g _ _ _)

theorem apply_edges_ext (l : List (Nat × Nat × EdgeLabel)) (g : CG)
    (ch : Bool) : g.Extends (apply_edges g l ch).2 := by
  induction l generalizing g ch with
  | nil => exact cg_ext_refl g
  | cons e t ih =>
    simp only [apply_edges, List.foldl_cons]
    exact cg_ext_trans (add_edge_ext g e.1 e.2.1 e.2.2)
      (ih (g.add_edge e.1 e.2.1 e.2.2).2 _)

theorem sat_pass_spec {g : CG} {r : Reach} {g2 : CG} {r2 : Reach} {ch : Bool}
    (h : sat_pass g r = some (g2, r2, ch)) :
    g2.nodes = g.nodes ∧ lext g.edges g2.edges := by
  simp only [sat_pass] at h
  split at h
  · rename_i st heq
    rw [Option.some.injEq] at h
    have hg2 : g2 = (apply_edges g (recall_to_add g (pass_one g (false, r)).2)
        (pass_one g (false, r)).1).2 := by
      have := congrArg Prod.fst h
      simpa using this.symm
    subst hg2
    exact ⟨apply_edges_nodes _ g _, (apply_edges_ext _ g _).2⟩
  · exact absurd h (by simp)

theorem sat_loop_spec (fuel : Nat) (g : CG) (r : Reach) (ch : Bool) (g2 : CG)
    (h : sat_loop fuel g r ch = .ok g2) :
    g2.nodes = g.nodes ∧ lext g.edges g2.edges := by
  induction fuel generalizing g r ch with
  | zero =>
    cases ch with
    | false =>
      simp only [sat_loop, SatRes.ok.injEq] at h
      subst h
      exact ⟨rfl, lext_refl _⟩
    | true => simp [sat_loop] at h
  | succ f ih =>
    cases ch with
    | false =>
      simp only [sat_loop, SatRes.ok.injEq] at h
      subst h
      exact ⟨rfl, lext_refl _⟩
    | true =>
      simp only [sat_loop] at h
      cases hp : sat_pass g r with
      | none => rw [hp] at h; simp at h
      | some p =>
        rw [hp] at h
        obtain ⟨pg, pr, pch⟩ := p
        obtain ⟨hn, he⟩ := ih pg pr pch h
        obtain ⟨hn2, he2⟩ := sat_pass_spec hp
        exact ⟨hn.trans hn2, lext_trans he2 he⟩

/-- The four nodes and two base `One` edges that `build_step` installs for
one constraint: the covariant pair with its `l -> r` edge and the
contravariant pair with its reversed `r -> l` edge. -/
theorem build_step_has2 (g : CG) (c : Constraint) :
    ∃ i j k m,
      (g.build_step c).nodes[i]? = some ⟨c.left, .Covariant, .None⟩ ∧
      (g.build_step c).nodes[j]? = some ⟨c.right, .Covariant, .None⟩ ∧
      (i, j, EdgeLabel.One) ∈ (g.build_step c).edges ∧
      (g.build_step c).nodes[k]? = some ⟨c.left, .Contravariant, .None⟩ ∧
      (g.build_step c).nodes[m]? = some ⟨c.right, .Contravariant, .None⟩ ∧
      (m, k, EdgeLabel.One) ∈ (g.build_step c).edges := by
  let nl := g.add_node ⟨c.left, .Covariant, .None⟩
  let nr := nl.2.add_node ⟨c.right, .Covariant, .None⟩
  let g1 := nr.2.raw_add_edge nl.1 nr.1 .One
  let g2 := g1.add_recalls nl.1 ⟨c.left, .Covariant, .None⟩
  let g3 := g2.add_forgets nr.1 ⟨c.right, .Covariant, .None⟩
  let rl := g3.add_node ⟨c.left, .Contravariant, .None⟩
  let rr := rl.2.add_node ⟨c.right, .Contravariant, .None⟩
  let g4 := rr.2.raw_add_edge rr.1 rl.1 .One
  have hE1 : g1.Extends (g.build_step c) := by
    unfold CG.build_step
    exact cg_ext_trans (add_recalls_ext _ _ _)
      (cg_ext_trans (add_forgets_ext _ _ _)
        (cg_ext_trans (add_node_ext _ _)
          (cg_ext_trans (add_node_ext _ _)
            (cg_ext_trans (raw_add_edge_ext _ _ _ _)
              (cg_ext_trans (add_recalls_ext _ _ _) (add_forgets_ext _ _ _))))))
  have hE4 : g4.Extends (g.build_step c) := by
    unfold CG.build_step
    exact cg_ext_trans (add_recalls_ext _ _ _) (add_forgets_ext _ _ _)
  have hl1 : nl.2.nodes[nl.1]? = some ⟨c.left, .Covariant, .None⟩ :=
    add_node_getElem g _
  have hr1 : nr.2.nodes[nr.1]? = some ⟨c.right, .Covariant, .None⟩ :=
    add_node_getElem nl.2 _
  have hl2 : nr.2.nodes[nl.1]? = some ⟨c.left, .Covariant, .None⟩ :=
    lext_getElem (add_node_ext nl.2 _).1 hl1
  have he1 : (nl.1, nr.1, EdgeLabel.One) ∈ g1.edges := by
    show _ ∈ nr.2.edges ++ [(nl.1, nr.1, EdgeLabel.One)]
    exact List.mem_append_right _ (by simp)
  have hkl1 : rl.2.nodes[rl.1]? = some ⟨c.left, .Contravariant, .None⟩ :=
    add_node_getElem g3 _
  have hkr1 : rr.2.nodes[rr.1]? = some ⟨c.right, .Contravariant, .None⟩ :=
    add_node_getElem rl.2 _
  have hkl2 : rr.2.nodes[rl.1]? = some ⟨c.left, .Contravariant, .None⟩ :=
    lext_getElem (add_node_ext rl.2 _).1 hkl1
  have he4 : (rr.1, rl.1, EdgeLabel.One) ∈ g4.edges := by
    show _ ∈ rr.2.edges ++ [(rr.1, rl.1, EdgeLabel.One)]
    exact List.mem_append_right _ (by simp)
  have hEr : nr.2.Extends (g.build_step c) :=
    cg_ext_trans (raw_add_edge_ext nr.2 nl.1 nr.1 .One) hE1
  have hErr : rr.2.Extends (g.build_step c) :=
    cg_ext_trans (raw_add_edge_ext rr.2 rr.1 rl.1 .One) hE4
  exact ⟨nl.1, nr.1, rl.1, rr.1,
    lext_getElem hEr.1 hl2, lext_getElem hEr.1 hr1, lext_mem hE1.2 he1,
    lext_getElem hErr.1 hkl2, lext_getElem hErr.1 hkr1, lext_mem hE4.2 he4⟩

/-- Every constraint in the list leaves its four nodes and two base `One`
edges in the graph `build_initial_graph` produces. -/
theorem build_of_mem (g : CG) {cs : List Constraint} {c : Constraint}
    (hc : c ∈ cs) :
    ∃ i j k m,
      (g.build_initial_graph cs).nodes[i]? = some ⟨c.left, .Covariant, .None⟩ ∧
      (g.build_initial_graph cs).nodes[j]? = some ⟨c.right, .Covariant, .None⟩ ∧
      (i, j, EdgeLabel.One) ∈ (g.build_initial_graph cs).edges ∧
      (g.build_initial_graph cs).nodes[k]? = some ⟨c.left, .Contravariant, .None⟩ ∧
      (g.build_initial_graph cs).nodes[m]? = some ⟨c.right, .Contravariant, .None⟩ ∧
      (m, k, EdgeLabel.One) ∈ (g.build_initial_graph cs).edges := by
  obtain ⟨s, t, rfl⟩ := List.append_of_mem hc
  obtain ⟨i, j, k, m, h1, h2, h3, h4, h5, h6⟩ :=
    build_step_has2 (g.build_initial_graph s) c
  have hE : (CG.build_step (g.build_initial_graph s) c).Extends
      (g.build_initial_graph (s ++ c :: t)) := by
    unfold CG.build_initial_graph
    rw [List.foldl_append, List.foldl_cons]
    exact build_ext _ t
  exact ⟨i, j, k, m, lext_getElem hE.1 h1, lext_getElem hE.1 h2,
    lext_mem hE.2 h3, lext_getElem hE.1 h4, lext_getElem hE.1 h5,
    lext_mem hE.2 h6⟩

/-- Re-running `build_step` for a constraint whose covariant endpoint nodes
are already present appends a second copy of the base `One` edge: the
direct `graph.add_edge` call performs no duplicate check. -/
theorem build_step_count (g : CG) (c : Constraint) (i j : Nat)
    (hnd : g.nodes.Nodup)
    (hi : g.nodes[i]? = some ⟨c.left, .Covariant, .None⟩)
    (hj : g.nodes[j]? = some ⟨c.right, .Covariant, .None⟩) :
    g.edges.count (i, j, EdgeLabel.One) + 1 ≤
      (g.build_step c).edges.count (i, j, EdgeLabel.One) := by
  have hnl : g.add_node ⟨c.left, .Covariant, .None⟩ = (i, g) := by
    unfold CG.add_node
    rw [findIdx_of_getElem hnd hi]
  have hnr : g.add_node ⟨c.right, .Covariant, .None⟩ = (j, g) := by
    unfold CG.add_node
    rw [findIdx_of_getElem hnd hj]
  simp only [CG.build_step, hnl, hnr]
  calc g.edges.count (i, j, EdgeLabel.One) + 1
      = (g.raw_add_edge i j EdgeLabel.One).edges.count (i, j, EdgeLabel.One) := by
        simp [CG.raw_add_edge, List.count_append]
    _ ≤ _ := lext_count (cg_ext_trans (add_recalls_ext _ _ _)
        (cg_ext_trans (add_forgets_ext _ _ _)
          (cg_ext_trans (add_node_ext _ _)
            (cg_ext_trans (add_node_ext _ _)
              (cg_ext_trans (raw_add_edge_ext _ _ _ _)
                (cg_ext_trans (add_recalls_ext _ _ _)
                  (add_forgets_ext _ _ _))))))).2

/-- `add_edge` returns `(false, g)` whenever the edge is a self loop or the
triple is already present. -/
theorem add_edge_no (g : CG) {a b : Nat} {l : EdgeLabel}
    (h : a = b ∨ (a, b, l) ∈ g.edges) : g.add_edge a b l = (false, g) := by
  rcases h with h | h
  · simp [CG.add_edge, if_pos h]
  · by_cases hab : a = b
    · simp [CG.add_edge, if_pos hab]
    · simp [CG.add_edge, hab, h]

/-- C1: for the four constraints `y <= p`, `p <= x`, `_A <= x.store`,
`y.load <= _B` given together to `ConstraintGraph::new`, the saturated
graph contains a `One` edge from the node `(x.store, Covariant, None)` to
the node `(y.load, Covariant, None)`. -/
theorem C1_store_load_one_edge :
    sat_has_one (cg_newF 20 cs_sat) (dtv "x" [.Store]) (dtv "y" [.Load]) = true := by
  rfl

/-- C2 counterexample: for the constraints `a <= b` and `b <= c` alone,
the saturated graph contains no `One` edge from the covariant node of `a`
to the covariant node of `c` — saturation adds no transitive `One` edges
(with no `Forget` edge the fixpoint loop does not even run). -/
theorem C2_counterexample :
    sat_has_one (cg_newF 20 cs_trans) (dtv "a" []) (dtv "c" []) = false ∧
    cg_newF 20 cs_trans = .ok (emptyCG.build_initial_graph cs_trans) ∧
    findIdx (emptyCG.build_initial_graph cs_trans).nodes (covNode (dtv "a" []))
      = some 0 ∧
    findIdx (emptyCG.build_initial_graph cs_trans).nodes (covNode (dtv "c" []))
      = some 4 :=
  ⟨rfl, rfl, rfl, rfl⟩

/-- C2 (amended): for every two constraints `a <= b` and `b <= c` supplied
together, the saturated graph contains a two-step path of `One` edges from
the covariant node of `a` through the covariant node of `b` to the
covariant node of `c` (not a direct `a -> c` edge). -/
theorem C2_one_path (cs : List Constraint) (a b c : DerivedTypeVariable)
    (h1 : (⟨a, b⟩ : Constraint) ∈ cs) (h2 : (⟨b, c⟩ : Constraint) ∈ cs)
    (fuel : Nat) (g : CG) (hg : cg_newF fuel cs = .ok g) :
    ∃ ia ib ic,
      g.nodes[ia]? = some (covNode a) ∧
      g.nodes[ib]? = some (covNode b) ∧
      g.nodes[ic]? = some (covNode c) ∧
      (ia, ib, EdgeLabel.One) ∈ g.edges ∧
      (ib, ic, EdgeLabel.One) ∈ g.edges := by
  have hsl := sat_loop_spec fuel (emptyCG.build_initial_graph cs)
    (seed (emptyCG.build_initial_graph cs)).2
    (seed (emptyCG.build_initial_graph cs)).1 g hg
  obtain ⟨hn, he⟩ := hsl
  obtain ⟨ia, ib, _, _, hA, hB, hAB, _, _, _⟩ := build_of_mem emptyCG h1
  obtain ⟨ib2, ic, _, _, hB2, hC, hBC, _, _, _⟩ := build_of_mem emptyCG h2
  have hnd : (emptyCG.build_initial_graph cs).nodes.Nodup :=
    build_nodup List.nodup_nil cs
  have hbb : ib = ib2 := getElem_inj_nodup hnd hB hB2
  subst hbb
  refine ⟨ia, ib, ic, ?_, ?_, ?_, ?_, ?_⟩
  · rw [hn]; exact hA
  · rw [hn]; exact hB
  · rw [hn]; exact hC
  · exact lext_mem he hAB
  · exact lext_mem he hBC

/-- C2 witness: the amended statement at the concrete constraint set
`a <= b`, `b <= c` (whose saturation leaves the initial graph unchanged). -/
theorem C2_one_path_witness :
    ∃ ia ib ic,
      (emptyCG.build_initial_graph cs_trans).nodes[ia]? = some (covNode (dtv "a" [])) ∧
      (emptyCG.build_initial_graph cs_trans).nodes[ib]? = some (covNode (dtv "b" [])) ∧
      (emptyCG.build_initial_graph cs_trans).nodes[ic]? = some (covNode (dtv "c" [])) ∧
      (ia, ib, EdgeLabel.One) ∈ (emptyCG.build_initial_graph cs_trans).edges ∧
      (ib, ic, EdgeLabel.One) ∈ (emptyCG.build_initial_graph cs_trans).edges :=
  C2_one_path cs_trans (dtv "a" []) (dtv "b" []) (dtv "c" [])
    (by decide) (by decide) 20 _ rfl

/-- C3 counterexample: on a state where the variance-inversion rule needs
the inverted twin of `a`'s contravariant node and that twin is absent from
the node map, the saturation engine does not return any graph value — the
claimed `InvariantViolation` error value does not exist in the code. -/
theorem C3_counterexample : ¬ ∃ g, saturateF 10 bad_cg = SatRes.ok g := by
  rintro ⟨g, h⟩
  rw [show saturateF 10 bad_cg = SatRes.panic from rfl] at h
  exact SatRes.noConfusion h

/-- C3 (amended): when the variance-inverted node is absent from the node
map, `saturate` hits the `.unwrap()` on the failed `graph_node_map` lookup
and panics — an uncontrolled crash, not a distinct error value. -/
theorem C3_unwrap_panics : saturateF 10 bad_cg = SatRes.panic := by
  rfl

/-- C7: `add_node` is idempotent on structurally equal keys (same index,
unchanged graph, exactly one node for the key); a repeated `add_edge` with
an equal `(source, target, label)` triple adds nothing and returns
`false`; a self-loop `add_edge` is a rejected no-op. -/
theorem C7_insertion_idempotent :
    (∀ (g : CG) (n : Node), g.nodes.Nodup →
      (g.add_node n).2.add_node n = ((g.add_node n).1, (g.add_node n).2) ∧
      (g.add_node n).2.nodes.count n = 1) ∧
    (∀ (g : CG) (a b : Nat) (l : EdgeLabel),
      (g.add_edge a b l).2.add_edge a b l = (false, (g.add_edge a b l).2)) ∧
    (∀ (g : CG) (a : Nat) (l : EdgeLabel), g.add_edge a a l = (false, g)) := by
  refine ⟨fun g n hnd => ⟨add_node_twice g n, ?_⟩, fun g a b l => ?_, fun g a l => ?_⟩
  · unfold CG.add_node
    cases hf : findIdx g.nodes n with
    | some i =>
      simp only
      exact List.count_eq_one_of_mem hnd (List.getElem?_mem (findIdx_getElem hf))
    | none =>
      simp only
      rw [List.count_append, List.count_eq_zero_of_not_mem (findIdx_nmem hf)]
      simp
  · by_cases hab : a = b
    · rw [add_edge_no g (Or.inl hab)]
      exact add_edge_no g (Or.inl hab)
    · by_cases hm : (a, b, l) ∈ g.edges
      · rw [add_edge_no g (Or.inr hm)]
        exact add_edge_no g (Or.inr hm)
      · have h1 : g.add_edge a b l = (true, { g with edges := g.edges ++ [(a, b, l)] }) := by
          simp [CG.add_edge, hab, hm]
        rw [h1]
        exact add_edge_no _ (Or.inr (List.mem_append_right _ (by simp)))
  · exact add_edge_no g (Or.inl rfl)

/-- C7 witness: the idempotence statement at a concrete node, edge and
self-loop. -/
theorem C7_insertion_idempotent_witness :
    (emptyCG.add_node (covNode (dtv "v" []))).2.add_node (covNode (dtv "v" []))
      = ((emptyCG.add_node (covNode (dtv "v" []))).1,
         (emptyCG.add_node (covNode (dtv "v" []))).2) ∧
    (emptyCG.add_node (covNode (dtv "v" []))).2.nodes.count (covNode (dtv "v" [])) = 1 :=
  C7_insertion_idempotent.1 emptyCG (covNode (dtv "v" [])) (by decide)

/-- C9: the two base `One` edges of `build_initial_graph` bypass
`add_edge`'s checks: a reflexive constraint `v <= v` yields a `One` self
loop on both the covariant and the contravariant node of `v`, and the same
constraint `l <= r` given twice yields two parallel `One` edges between
the same covariant pair. -/
theorem C9_raw_base_edges :
    (∀ v : DerivedTypeVariable,
      ∃ i j,
        (emptyCG.build_initial_graph [⟨v, v⟩]).nodes[i]? = some ⟨v, .Covariant, .None⟩ ∧
        (i, i, EdgeLabel.One) ∈ (emptyCG.build_initial_graph [⟨v, v⟩]).edges ∧
        (emptyCG.build_initial_graph [⟨v, v⟩]).nodes[j]? = some ⟨v, .Contravariant, .None⟩ ∧
        (j, j, EdgeLabel.One) ∈ (emptyCG.build_initial_graph [⟨v, v⟩]).edges) ∧
    (∀ l r : DerivedTypeVariable,
      ∃ i j,
        (emptyCG.build_initial_graph [⟨l, r⟩, ⟨l, r⟩]).nodes[i]? = some (covNode l) ∧
        (emptyCG.build_initial_graph [⟨l, r⟩, ⟨l, r⟩]).nodes[j]? = some (covNode r) ∧
        2 ≤ (emptyCG.build_initial_graph [⟨l, r⟩, ⟨l, r⟩]).edges.count
          (i, j, EdgeLabel.One)) := by
  constructor
  · intro v
    obtain ⟨i, j, k, m, h1, h2, h3, h4, h5, h6⟩ := build_step_has2 emptyCG ⟨v, v⟩
    have hnd : (emptyCG.build_step ⟨v, v⟩).nodes.Nodup :=
      build_step_nodup List.nodup_nil _
    have hij : i = j := getElem_inj_nodup hnd h1 h2
    have hkm : k = m := getElem_inj_nodup hnd h4 h5
    subst hij
    subst hkm
    exact ⟨i, k, h1, h3, h4, h6⟩
  · intro l r
    obtain ⟨i, j, _, _, h1, h2, h3, _, _, _⟩ := build_step_has2 emptyCG ⟨l, r⟩
    have hnd1 : (emptyCG.build_step ⟨l, r⟩).nodes.Nodup :=
      build_step_nodup List.nodup_nil _
    have hcount1 : 0 < (emptyCG.build_step ⟨l, r⟩).edges.count (i, j, EdgeLabel.One) :=
      List.count_pos_iff.mpr h3
    have hstep := build_step_count (emptyCG.build_step ⟨l, r⟩) ⟨l, r⟩ i j hnd1 h1 h2
    have hE := build_step_ext (emptyCG.build_step ⟨l, r⟩) (⟨l, r⟩ : Constraint)
    refine ⟨i, j, lext_getElem hE.1 h1, lext_getElem hE.1 h2, ?_⟩
    show 2 ≤ ((emptyCG.build_step ⟨l, r⟩).build_step ⟨l, r⟩).edges.count
      (i, j, EdgeLabel.One)
    omega

/-- C4 counterexample: on `a.load <= b.load`, `a <= b` the completed
`infer_shapes` run yields a quotient graph with two parallel edges
carrying the same `(source, target, label)` triple — the re-projection
loop skips nothing. -/
theorem C4_counterexample : quot_dup_free (infer_shapes 10 cs4) = false := by
  rfl

/-- C4 (amended): the quotient-edge loop re-projects every step-graph edge
unconditionally (one quotient edge per `G` edge, no duplicate check), so
merged classes receive parallel duplicate edges: on `a.load <= b.load`,
`a <= b` the class of `{a, b}` has two identical `load` edges to the class
of `{a.load, b.load}`. -/
theorem C4_duplicate_edges :
    ∃ q, infer_shapes 10 cs4 = some q ∧
      q.qedges.count (0, 1, FieldLabel.Load) = 2 ∧
      q.qedges.length = 2 :=
  ⟨_, rfl, rfl, rfl⟩

theorem chase_s5_cycle :
    ∀ f, (∀ acc, chase f s5 1 acc = none) ∧ (∀ acc, chase f s5 3 acc = none) := by
  intro f
  induction f with
  | zero => exact ⟨fun _ => rfl, fun _ => rfl⟩
  | succ k ih => exact ⟨fun acc => ih.2 (acc ++ [1]), fun acc => ih.1 (acc ++ [3])⟩

theorem find_s5_diverges (f : Nat) : find_equiv_group f s5 1 = none := by
  unfold find_equiv_group
  rw [(chase_s5_cycle f).1 []]
  rfl

/-- C5: the claim that saturation and shape unification always terminate
is contradicted by the code: on the constraints `p.load <= q.load`,
`q <= p`, the unification of step 2 leaves the representative pointers of
`p.load` and `q.load` pointing at each other, the chase of
`find_equiv_group` on `p.load`'s node never reaches a root at any fuel,
and therefore the quotient stage of `infer_shapes` (which resolves every
node's representative) never finishes at any fuel. -/
theorem C5_unification_diverges :
    unify_stage 10 cs5 = some s5 ∧
    rep_of s5 1 = some 3 ∧ rep_of s5 3 = some 1 ∧
    (∀ fuel acc, chase fuel s5 1 acc = none) ∧
    (∀ fuel, infer_shapes fuel cs5 = none) := by
  refine ⟨rfl, rfl, rfl, fun fuel acc => (chase_s5_cycle fuel).1 acc, ?_⟩
  intro fuel
  match fuel with
  | 0 => rfl
  | 1 => rfl
  | (k + 2) =>
    have h1 : unify_stage (k + 2) cs5 = some s5 := rfl
    have h0 : quot_step (k + 2) (s5, (⟨[], [], []⟩ : QState)) 0 =
        some (s5, ⟨[[dtv "p" []]], [], [(2, 0)]⟩) := rfl
    have hstep1 : quot_step (k + 2) (s5, (⟨[[dtv "p" []]], [], [(2, 0)]⟩ : QState)) 1 =
        none := by
      simp [quot_step, find_s5_diverges (k + 2)]
    have hq : quot_nodes (k + 2) s5 = none := by
      show (List.range s5.dtvs.length).foldlM (quot_step (k + 2))
        (s5, (⟨[], [], []⟩ : QState)) = none
      rw [show List.range s5.dtvs.length = [0, 1, 2, 3] from rfl]
      rw [List.foldlM_cons, h0]
      show (List.foldlM (quot_step (k + 2))
        (s5, (⟨[[dtv "p" []]], [], [(2, 0)]⟩ : QState)) [1, 2, 3]) = none
      rw [List.foldlM_cons, hstep1]
      rfl
    simp only [infer_shapes]
    rw [h1]
    simp only [Option.some_bind]
    rw [hq]
    rfl

theorem stops_nil (p : Char → Bool) : stops p [] := fun c h => by simp at h

theorem stops_cons {p : Char → Bool} {c : Char} {t : Text} (h : p c = false) :
    stops p (c :: t) := by
  intro c2 hc
  simp only [List.head?_cons, Option.some.injEq] at hc
  exact hc ▸ h

theorem takeWhile_append_all {p : Char → Bool} (l r : Text)
    (hl : ∀ c ∈ l, p c = true) (hr : stops p r) :
    (l ++ r).takeWhile p = l ∧ (l ++ r).dropWhile p = r := by
  induction l with
  | nil =>
    simp only [List.nil_append]
    cases r with
    | nil => simp
    | cons c t =>
      have hc : p c = false := hr c rfl
      rw [List.takeWhile_cons, List.dropWhile_cons]
      simp [hc]
  | cons a l ih =>
    have ha : p a = true := hl a (by simp)
    have hl2 : ∀ c ∈ l, p c = true := fun c hc => hl c (by simp [hc])
    obtain ⟨h1, h2⟩ := ih hl2
    rw [List.cons_append, List.takeWhile_cons, List.dropWhile_cons]
    simp [ha, h1, h2]

theorem valDigits_concat (ds : List Char) (c : Char) :
    valDigits (ds ++ [c]) = valDigits ds * 10 + digitVal c := by
  simp [valDigits, List.foldl_append]

theorem digitChar_digit (d : Nat) : isDigitC (digitChar d) = true := by
  rcases d with _ | _ | _ | _ | _ | _ | _ | _ | _ | d <;> rfl

theorem digitChar_val {d : Nat} (h : d < 10) : digitVal (digitChar d) = d := by
  interval_cases d <;> rfl

theorem decDigitsF_spec :
    ∀ (fu n : Nat), n < fu →
      (∀ c ∈ decDigitsF fu n, isDigitC c = true) ∧
        valDigits (decDigitsF fu n) = n ∧ decDigitsF fu n ≠ [] := by
  intro fu
  induction fu with
  | zero => intro n h; exact absurd h (by omega)
  | succ fu ih =>
    intro n h
    by_cases h10 : n < 10
    · rw [decDigitsF, if_pos h10]
      refine ⟨fun c hc => ?_, ?_, by simp⟩
      · rw [List.mem_singleton] at hc
        exact hc ▸ digitChar_digit n
      · show valDigits [digitChar n] = n
        simp [valDigits, digitChar_val h10]
    · rw [decDigitsF, if_neg h10]
      have hdiv : n / 10 < n := Nat.div_lt_self (by omega) (by omega)
      obtain ⟨ih1, ih2, _⟩ := ih (n / 10) (by omega)
      refine ⟨fun c hc => ?_, ?_, by simp⟩
      · rw [List.mem_append] at hc
        rcases hc with hc | hc
        · exact ih1 c hc
        · rw [List.mem_singleton] at hc
          exact hc ▸ digitChar_digit _
      · rw [valDigits_concat, ih2, digitChar_val (Nat.mod_lt n (by omega))]
        have := Nat.div_add_mod n 10
        omega

theorem decDigits_spec (n : Nat) :
    (∀ c ∈ decDigits n, isDigitC c = true) ∧
      valDigits (decDigits n) = n ∧ decDigits n ≠ [] :=
  decDigitsF_spec (n + 1) n (by omega)

theorem parseDigits_append {n : Nat} {rest : Text} (hr : stops isDigitC rest) :
    parseDigits (decDigits n ++ rest) = some (n, rest) := by
  obtain ⟨hd, hv, hne⟩ := decDigits_spec n
  obtain ⟨ht, hdw⟩ := takeWhile_append_all (decDigits n) rest hd hr
  unfold parseDigits
  rw [ht, hdw]
  simp [List.isEmpty_iff, hne, hv]

theorem parseU32_append {n : Nat} {rest : Text} (hn : n < 2 ^ 32)
    (hr : stops isDigitC rest) :
    parseU32 (decDigits n ++ rest) = some (n, rest) := by
  unfold parseU32
  rw [parseDigits_append hr]
  simp only [Option.some_bind]
  rw [if_pos hn]

theorem decDigits_cons (n : Nat) :
    ∃ c cs, decDigits n = c :: cs ∧ isDigitC c = true := by
  obtain ⟨hd, _, hne⟩ := decDigits_spec n
  obtain ⟨c, cs, hc⟩ := List.exists_cons_of_ne_nil hne
  exact ⟨c, cs, hc, hd c (by simp [hc])⟩

theorem digit_ne_minus {c : Char} (h : isDigitC c = true) : c ≠ '-' :=
  fun hc => absurd (hc ▸ h) (by decide)

theorem digit_ne_n {c : Char} (h : isDigitC c = true) : c ≠ 'n' :=
  fun hc => absurd (hc ▸ h) (by decide)

theorem digit_ne_o {c : Char} (h : isDigitC c = true) : c ≠ 'o' :=
  fun hc => absurd (hc ▸ h) (by decide)

theorem parseI32_fmt {i : Int} (h1 : -(2 ^ 31 : Int) ≤ i) (h2 : i < 2 ^ 31)
    {rest : Text} (hr : stops isDigitC rest) :
    parseI32 (fmtInt i ++ rest) = some (i, rest) := by
  by_cases hneg : i < 0
  · rw [fmtInt, if_pos hneg]
    unfold parseI32
    rw [List.cons_append]
    rw [if_pos (show (('-' :: (decDigits i.natAbs ++ rest)) : Text).head? =
      some '-' from rfl)]
    rw [List.tail_cons]
    rw [parseDigits_append hr]
    simp only [Option.some_bind]
    rw [if_neg (show ¬ (2 ^ 31 : Nat) < i.natAbs by omega)]
    rw [show -((i.natAbs : Nat) : Int) = i by omega]
  · rw [fmtInt, if_neg hneg]
    obtain ⟨c, cs, hc, hdig⟩ := decDigits_cons i.toNat
    unfold parseI32
    have hh : (decDigits i.toNat ++ rest).head? = some c := by
      rw [hc]
      rfl
    rw [if_neg (by rw [hh]; simp [digit_ne_minus hdig])]
    rw [parseDigits_append hr]
    simp only [Option.some_bind]
    rw [if_pos (show i.toNat < 2 ^ 31 by omega)]
    rw [show ((i.toNat : Nat) : Int) = i by omega]

theorem tagP_append (pat rest : Text) : tagP pat (pat ++ rest) = some rest := by
  unfold tagP
  rw [if_pos]
  · rw [List.drop_left]
  · rw [List.isPrefixOf_iff_prefix]
    exact List.prefix_append pat rest

theorem tagP_ne {p c : Char} (ps t : Text) (h : p ≠ c) :
    tagP (p :: ps) (c :: t) = none := by
  unfold tagP
  rw [if_neg]
  intro hpre
  rw [List.isPrefixOf_iff_prefix] at hpre
  obtain ⟨u, hu⟩ := hpre
  rw [List.cons_append] at hu
  injection hu with h1 _
  exact h h1

theorem dotStops_digit {rest : Text} (h : dotStops rest) : stops isDigitC rest := by
  rcases h with h | ⟨t, h⟩
  · subst h
    exact stops_nil _
  · subst h
    exact stops_cons (by decide)

/-- One displayed field label followed by a `.`-or-nothing remainder parses
back to the label with exactly that remainder left. -/
theorem parse_fl_fmt (v : FieldLabel) (rest : Text) (hv : goodFL v)
    (hr : dotStops rest) :
    parse_field_label (fmtFL v ++ rest) = some (v, rest) := by
  cases v with
  | InPattern n =>
    have hin : parse_in_pattern (("in_".toList ++ decDigits n) ++ rest) =
        some (FieldLabel.InPattern n, rest) := by
      unfold parse_in_pattern
      rw [List.append_assoc, tagP_append]
      simp only [Option.some_bind]
      rw [parseU32_append hv (dotStops_digit hr)]
      rfl
    unfold parse_field_label
    rw [show fmtFL (FieldLabel.InPattern n) = "in_".toList ++ decDigits n from rfl]
    rw [hin]
  | OutPattern n =>
    have hin : parse_in_pattern (("out_".toList ++ decDigits n) ++ rest) = none := by
      rw [List.append_assoc]
      rfl
    have hout : parse_out_pattern (("out_".toList ++ decDigits n) ++ rest) =
        some (FieldLabel.OutPattern n, rest) := by
      unfold parse_out_pattern
      rw [List.append_assoc, tagP_append]
      simp only [Option.some_bind]
      rw [parseU32_append hv (dotStops_digit hr)]
      rfl
    unfold parse_field_label
    rw [show fmtFL (FieldLabel.OutPattern n) = "out_".toList ++ decDigits n from rfl]
    rw [hin, hout]
  | DerefPattern s o b =>
    obtain ⟨hs, ho1, ho2, hb⟩ := hv
    have hbound : (b = none) ∨ (∃ k, b = some (Bound.Fixed k) ∧ k < 2 ^ 32) := by
      match b with
      | none => exact Or.inl rfl
      | some (.Fixed k) => exact Or.inr ⟨k, rfl, hb⟩
      | some .NullTerm => exact absurd hb (by simp [goodBound])
      | some .NoBound => exact absurd hb (by simp [goodBound])
    have hcore : ∀ t : Text, parse_bound_core t = none →
        parse_bound_opt t = (none, t) := by
      intro t ht
      unfold parse_bound_opt
      rw [ht]
    rcases hbound with hb0 | ⟨k, hb0, hk⟩ <;> subst hb0
    · have htext : fmtFL (FieldLabel.DerefPattern s o none) ++ rest =
          "σ".toList ++ (decDigits s ++ ('@' :: (fmtInt o ++ rest))) := by
        simp [fmtFL, List.append_assoc]
      have hcr : parse_bound_core rest = none := by
        rcases hr with h | ⟨t, h⟩ <;> subst h
        · rfl
        · unfold parse_bound_core
          rw [show ("*[".toList : Text) = '*' :: ['['] from rfl]
          rw [tagP_ne _ _ (by decide : '*' ≠ '.')]
          rfl
      have hderef : parse_deref_pattern (fmtFL (FieldLabel.DerefPattern s o none)
          ++ rest) = some (FieldLabel.DerefPattern s o none, rest) := by
        unfold parse_deref_pattern
        rw [htext, tagP_append]
        simp only [Option.some_bind]
        rw [parseU32_append hs (stops_cons (by decide))]
        simp only [Option.some_bind]
        rw [show charP '@' ('@' :: (fmtInt o ++ rest)) = some (fmtInt o ++ rest)
          from rfl]
        simp only [Option.some_bind]
        rw [parseI32_fmt ho1 ho2 (dotStops_digit hr)]
        simp only [Option.some_bind]
        rw [hcore rest hcr]
      unfold parse_field_label
      rw [show parse_in_pattern (fmtFL (FieldLabel.DerefPattern s o none) ++ rest)
        = none from rfl]
      rw [show parse_out_pattern (fmtFL (FieldLabel.DerefPattern s o none) ++ rest)
        = none from rfl]
      rw [hderef]
    · have htext : fmtFL (FieldLabel.DerefPattern s o (some (Bound.Fixed k))) ++ rest =
          "σ".toList ++ (decDigits s ++ ('@' :: (fmtInt o ++
            (('*' :: '[' :: (decDigits k ++ [']'])) ++ rest)))) := by
        simp [fmtFL, fmtBound, List.append_assoc]
      obtain ⟨c, cs, hc, hdig⟩ := decDigits_cons k
      have hcr : parse_bound_core (('*' :: '[' :: (decDigits k ++ [']'])) ++ rest) =
          some (Bound.Fixed k, rest) := by
        unfold parse_bound_core
        rw [show (('*' :: '[' :: (decDigits k ++ [']'])) ++ rest : Text) =
          "*[".toList ++ (decDigits k ++ (']' :: rest)) from by simp]
        rw [tagP_append]
        simp only [Option.some_bind]
        rw [show ("nullterm".toList : Text) = 'n' :: "ullterm".toList from rfl]
        rw [hc, List.cons_append, tagP_ne _ _ (Ne.symm (digit_ne_n hdig))]
        rw [show ("nobound".toList : Text) = 'n' :: "obound".toList from rfl]
        rw [tagP_ne _ _ (Ne.symm (digit_ne_n hdig))]
        rw [← List.cons_append, ← hc]
        rw [parseU32_append hk (stops_cons (by decide))]
        simp only [Option.some_bind]
        rfl
      have hderef : parse_deref_pattern
          (fmtFL (FieldLabel.DerefPattern s o (some (Bound.Fixed k))) ++ rest) =
          some (FieldLabel.DerefPattern s o (some (Bound.Fixed k)), rest) := by
        unfold parse_deref_pattern
        rw [htext, tagP_append]
        simp only [Option.some_bind]
        rw [parseU32_append hs (stops_cons (by decide))]
        simp only [Option.some_bind]
        rw [show charP '@' ('@' :: (fmtInt o ++ (('*' :: '[' :: (decDigits k ++ [']']))
          ++ rest))) = some (fmtInt o ++ (('*' :: '[' :: (decDigits k ++ [']']))
          ++ rest)) from rfl]
        simp only [Option.some_bind]
        rw [parseI32_fmt ho1 ho2 (show stops isDigitC
          (('*' :: '[' :: (decDigits k ++ [']'])) ++ rest) from stops_cons (by decide))]
        simp only [Option.some_bind]
        rw [show parse_bound_opt (('*' :: '[' :: (decDigits k ++ [']'])) ++ rest) =
          (some (Bound.Fixed k), rest) from by unfold parse_bound_opt; rw [hcr]]
      unfold parse_field_label
      rw [show parse_in_pattern (fmtFL (FieldLabel.DerefPattern s o
        (some (Bound.Fixed k))) ++ rest) = none from rfl]
      rw [show parse_out_pattern (fmtFL (FieldLabel.DerefPattern s o
        (some (Bound.Fixed k))) ++ rest) = none from rfl]
      rw [hderef]
  | Load =>
    have hload : parse_load ("load".toList ++ rest) = some (FieldLabel.Load, rest) := by
      unfold parse_load
      rw [tagP_append]
      rfl
    unfold parse_field_label
    rw [show fmtFL FieldLabel.Load = "load".toList from rfl]
    rw [show parse_in_pattern ("load".toList ++ rest) = none from rfl]
    rw [show parse_out_pattern ("load".toList ++ rest) = none from rfl]
    rw [show parse_deref_pattern ("load".toList ++ rest) = none from rfl]
    rw [hload]
  | Store =>
    have hstore : parse_store ("store".toList ++ rest) =
        some (FieldLabel.Store, rest) := by
      unfold parse_store
      rw [tagP_append]
      rfl
    unfold parse_field_label
    rw [show fmtFL FieldLabel.Store = "store".toList from rfl]
    rw [show parse_in_pattern ("store".toList ++ rest) = none from rfl]
    rw [show parse_out_pattern ("store".toList ++ rest) = none from rfl]
    rw [show parse_deref_pattern ("store".toList ++ rest) = none from rfl]
    rw [show parse_load ("store".toList ++ rest) = none from rfl]
    rw [hstore]

theorem fieldsText_dotStops (fs : List FieldLabel) : dotStops (fieldsText fs) := by
  cases fs with
  | nil => exact Or.inl rfl
  | cons f t => exact Or.inr ⟨fmtFL f ++ fieldsText t, by simp [fieldsText]⟩

theorem fieldsText_len (fs : List FieldLabel) :
    fs.length ≤ (fieldsText fs).length := by
  induction fs with
  | nil => simp [fieldsText]
  | cons f t ih =>
    have : fieldsText (f :: t) = '.' :: (fmtFL f ++ fieldsText t) := by
      simp [fieldsText]
    rw [this]
    simp only [List.length_cons, List.length_append]
    omega

theorem parse_fields_f_fmt (fs : List FieldLabel) :
    ∀ fu : Nat, fs.length ≤ fu → (∀ f ∈ fs, goodFL f) →
      parse_fields_f fu (fieldsText fs) = (fs, []) := by
  induction fs with
  | nil =>
    intro fu _ _
    cases fu with
    | zero => rfl
    | succ fu => rfl
  | cons f t ih =>
    intro fu hlen hgood
    cases fu with
    | zero => exact absurd hlen (by simp)
    | succ fu =>
      rw [show fieldsText (f :: t) = '.' :: (fmtFL f ++ fieldsText t) from by
        simp [fieldsText]]
      simp only [parse_fields_f]
      rw [parse_fl_fmt f (fieldsText t) (hgood f (by simp)) (fieldsText_dotStops t)]
      show (f :: (parse_fields_f fu (fieldsText t)).1,
        (parse_fields_f fu (fieldsText t)).2) = (f :: t, [])
      rw [ih fu (by simpa using hlen) (fun x hx => hgood x (by simp [hx]))]

/-- A displayed DTV with a well-formed name and round-trippable labels
parses back exactly. -/
theorem parse_dtv_fmt (d : DerivedTypeVariable) (hn : goodName d.name)
    (hf : ∀ f ∈ d.fields, goodFL f) :
    parse_derived_type_variable (fmtDTV d) = some (d, []) := by
  obtain ⟨hne, hchars⟩ := hn
  have hstops : stops isIdentChar (fieldsText d.fields) := by
    rcases fieldsText_dotStops d.fields with h | ⟨t, h⟩
    · rw [h]
      exact stops_nil _
    · rw [h]
      exact stops_cons (by decide)
  obtain ⟨ht, hdw⟩ :=
    takeWhile_append_all d.name.toList (fieldsText d.fields) hchars hstops
  have hid : parse_identifier (d.name.toList ++ fieldsText d.fields) =
      some (d.name, fieldsText d.fields) := by
    simp only [parse_identifier]
    rw [ht, hdw]
    rw [if_neg (by simp only [List.isEmpty_iff]; exact hne)]
    rfl
  unfold parse_derived_type_variable
  rw [show fmtDTV d = d.name.toList ++ fieldsText d.fields from rfl]
  rw [hid]
  simp only
  rw [parse_fields_f_fmt d.fields _ (fieldsText_len _) hf]

/-- C6 counterexample: the display form of `DerefPattern` with bound
`NullTerm` is `σ4@0nullterm`, which the grammar reads as the unbounded
`σ4@0` with the text `nullterm` left unconsumed — the round trip fails. -/
theorem C6_counterexample :
    round_fl (FieldLabel.DerefPattern 4 0 (some Bound.NullTerm)) = false := by
  rfl

/-- C6 (amended): `parse(format(v)) = v` with full consumption holds for
every constructible field label except a `DerefPattern` whose bound is
`NullTerm` or `NoBound` (their display omits the `*[ ]` wrapper the
grammar requires), and for whole derived type variables whose name is a
valid identifier and whose labels avoid those two bounds. -/
theorem C6_roundtrip :
    (∀ v : FieldLabel, goodFL v → parse_field_label (fmtFL v) = some (v, [])) ∧
    (∀ d : DerivedTypeVariable, goodName d.name → (∀ f ∈ d.fields, goodFL f) →
      parse_derived_type_variable (fmtDTV d) = some (d, [])) := by
  constructor
  · intro v hv
    have := parse_fl_fmt v [] hv (Or.inl rfl)
    simpa using this
  · exact parse_dtv_fmt

/-- C6 witness: the amended round trip at a bounded deref label with a
negative offset and at a two-label DTV. -/
theorem C6_roundtrip_witness :
    parse_field_label (fmtFL (FieldLabel.DerefPattern 4 (-2) (some (Bound.Fixed 3))))
      = some (FieldLabel.DerefPattern 4 (-2) (some (Bound.Fixed 3)), []) ∧
    parse_derived_type_variable (fmtDTV ⟨"F", [FieldLabel.InPattern 1, FieldLabel.Load]⟩)
      = some (⟨"F", [FieldLabel.InPattern 1, FieldLabel.Load]⟩, []) :=
  ⟨C6_roundtrip.1 _ ⟨by norm_num, by norm_num, by norm_num, by norm_num [goodBound]⟩,
   C6_roundtrip.2 _ ⟨by decide, by decide⟩
     (by intro f hf; fin_cases hf <;> simp [goodFL])⟩

/-- C10: the bare textual field label `out` parses to `OutPattern(0)`,
the same value as `out_0`, so the two spellings are indistinguishable
downstream. -/
theorem C10_out_alias :
    parse_field_label "out".toList = some (FieldLabel.OutPattern 0, []) ∧
    parse_field_label "out_0".toList = some (FieldLabel.OutPattern 0, []) :=
  ⟨rfl, rfl⟩

/-- C8: with petgraph's contracts as hypotheses — every cross-SCC call
edge `f -> g` yields a condensation edge between the components, and
`toposort` lists every condensation edge's source before its target —
the iteration order of `infer_proc_types` (the reverse of the sort)
processes `g`'s component strictly before `f`'s. -/
theorem C8_bottom_up_order (sccOf : String → Nat) (sccEdges : List (Nat × Nat))
    (topo : List Nat) (callEdges : List (String × String))
    (hcond : ∀ p ∈ callEdges, sccOf p.1 ≠ sccOf p.2 →
      (sccOf p.1, sccOf p.2) ∈ sccEdges)
    (htopo : ∀ e ∈ sccEdges, before_in topo e.1 e.2)
    (f g : String) (hfg : (f, g) ∈ callEdges) (hne : sccOf f ≠ sccOf g) :
    before_in (proc_order topo) (sccOf g) (sccOf f) := by
  have h := htopo _ (hcond _ hfg hne)
  have h2 := List.Sublist.reverse
    (show ([sccOf f, sccOf g]).Sublist topo from h)
  show ([sccOf g, sccOf f]).Sublist topo.reverse
  simpa using h2

/-- C8 witness: the ordering statement at the two-procedure call graph
`f -> g` with condensation edge `(0, 1)` and topological order `[0, 1]`. -/
theorem C8_bottom_up_order_witness :
    before_in (proc_order [0, 1]) (sccOf_w "g") (sccOf_w "f") :=
  C8_bottom_up_order sccOf_w [(0, 1)] [0, 1] [("f", "g")]
    (by decide)
    (by
      intro e he
      rw [List.mem_singleton] at he
      subst he
      exact List.Sublist.refl _)
    "f" "g" (by decide) (by decide)

end Retypd
